import Mathlib

/-!
Verification of the Playfair cipher implementation in src/playfair.cpp.

Characters are modelled by their ASCII codes as natural numbers, matching the
byte-level view the C++ code takes of its strings (a C++ char is an integer;
the letter A is 65, Z is 90, a is 97, z is 122, I is 73, J is 74, Q is 81,
X is 88).  Strings are lists of such codes.  The class member processedText is
made explicit: each member function becomes a function from its inputs to the
text it produces.
-/

namespace Playfair

/-- ASCII codes of the characters of a string literal, used to transcribe the
string constants of the C++ source. -/
def strCodes (s : String) : List Nat := s.toList.map Char.toNat

/-- Constant GRID_SIZE of PlayfairConstants. -/
def GRID_SIZE : Nat := 5

/-- Constant GRID_TOTAL_CELLS of PlayfairConstants. -/
def GRID_TOTAL_CELLS : Nat := GRID_SIZE * GRID_SIZE

/-- Constant DEFAULT_KEY of PlayfairConstants, the string KEYWORD. -/
def DEFAULT_KEY : List Nat := strCodes ("KEYWORD")

/-- Constant PADDING_CHAR of PlayfairConstants, the letter X. -/
def PADDING_CHAR : Nat := 88

/-- Constant FIRST_LETTER of PlayfairConstants, the letter A. -/
def FIRST_LETTER : Nat := 65

/-- Constant LAST_LETTER of PlayfairConstants, the letter Z. -/
def LAST_LETTER : Nat := 90

/-- Code of the letter I. -/
def letterI : Nat := 73

/-- Code of the letter J. -/
def letterJ : Nat := 74

/-- Code of the letter Q. -/
def letterQ : Nat := 81

/-- Spec name for the reduction mode where J is rewritten to I; the C++ code
passes shouldMapItoJ = true for it. -/
abbrev MergeJintoI : Bool := true

/-- Spec name for the reduction mode where Q is discarded; the C++ code
passes shouldMapItoJ = false for it. -/
abbrev DropQ : Bool := false

/-- The letter a reduction mode excludes from grids and normalized text. -/
def excludedLetter (shouldMapItoJ : Bool) : Nat :=
  if shouldMapItoJ then letterJ else letterQ

/-- Models std toupper under the C locale on byte values, as used by the
source: lowercase ASCII letters map to uppercase, all else is unchanged. -/
def toUpperCode (c : Nat) : Nat := if 97 ≤ c ∧ c ≤ 122 then c - 32 else c

/-- The 26-letter alphabet string appended to the key in buildCipherGrid. -/
def alphabetCodes : List Nat := strCodes ("ABCDEFGHIJKLMNOPQRSTUVWXYZ")

/-- Per-character behaviour of the filter loop in buildCipherGrid: uppercase,
keep only letters, and skip J under MergeJintoI or Q under DropQ. -/
def gridChar (shouldMapItoJ : Bool) (ch : Nat) : Option Nat :=
  let u := toUpperCode ch
  if u < FIRST_LETTER ∨ LAST_LETTER < u then none
  else if (u = letterJ ∧ shouldMapItoJ = true) ∨ (u = letterQ ∧ shouldMapItoJ = false) then none
  else some u

/-- Per-character behaviour of the normalization loop of
normalizeAndPrepareText: uppercase, keep only letters, rewrite J to I under
MergeJintoI, drop Q under DropQ. -/
def textChar (shouldMapItoJ : Bool) (ch : Nat) : Option Nat :=
  let u := toUpperCode ch
  if u < FIRST_LETTER ∨ LAST_LETTER < u then none
  else if u = letterJ ∧ shouldMapItoJ = true then some letterI
  else if u = letterQ ∧ shouldMapItoJ = false then none
  else some u

/-- One step of the unique-extraction loop of buildCipherGrid (the "Add if not
already present" check on uniqueCharacters). -/
def uniqueStep (shouldMapItoJ : Bool) (acc : List Nat) (ch : Nat) : List Nat :=
  match gridChar shouldMapItoJ ch with
  | none => acc
  | some u => if u ∈ acc then acc else acc ++ [u]

/-- The uniqueCharacters string built inside buildCipherGrid: default-key
substitution for an empty key, alphabet append, then the left-to-right
unique-extraction loop. -/
def uniqueCharacters (encryptionKey : List Nat) (shouldMapItoJ : Bool) : List Nat :=
  ((if encryptionKey = [] then DEFAULT_KEY else encryptionKey) ++ alphabetCodes).foldl
    (uniqueStep shouldMapItoJ) []

/-- buildCipherGrid: the 5 by 5 cipherGrid filled row-major from the first
GRID_TOTAL_CELLS characters of uniqueCharacters, represented as the flat list
of its cells (cell (row, col) is entry row * 5 + col). -/
def buildCipherGrid (encryptionKey : List Nat) (shouldMapItoJ : Bool) : List Nat :=
  (uniqueCharacters encryptionKey shouldMapItoJ).take GRID_TOTAL_CELLS

/-- Row-major scan underlying findCharacterPosition: index of the first grid
cell holding the character, if any. -/
def findFlatIndex (grid : List Nat) (c : Nat) : Option Nat :=
  match grid with
  | [] => none
  | x :: rest => if x = c then some 0 else (findFlatIndex rest c).map (fun i => i + 1)

/-- findCharacterPosition: the (column, row) pair of the first grid cell
holding the character, scanning rows outermost exactly as the C++ loops do. -/
def findCharacterPosition (grid : List Nat) (c : Nat) : Option (Nat × Nat) :=
  (findFlatIndex grid c).map (fun i => (i % GRID_SIZE, i / GRID_SIZE))

/-- Index wrap of getCharacterAtPosition: the C++ expression
(i % 5 + 5) % 5, where the percent operator of C++ is the truncated-division
remainder, Int.tmod. -/
def wrapIndex (i : Int) : Nat := ((i.tmod 5 + 5).tmod 5).toNat

/-- getCharacterAtPosition: wrap both indices and read cell
(wrappedRow, wrappedColumn) of the grid. -/
def getCharacterAtPosition (grid : List Nat) (column row : Int) : Nat :=
  grid.getD (wrapIndex row * GRID_SIZE + wrapIndex column) 0

/-- One iteration of the loop of transformDigraphPairs on a pair (a, b):
same row shifts both columns by shiftDirection, same column shifts both rows,
otherwise the rectangle rule swaps the columns; a pair one of whose letters
is missing from the grid contributes nothing. -/
def transformOnePair (grid : List Nat) (shiftDirection : Int) (a b : Nat) : List Nat :=
  match findCharacterPosition grid a, findCharacterPosition grid b with
  | some (ca, ra), some (cb, rb) =>
    if ra = rb then
      [getCharacterAtPosition grid (ca + shiftDirection) ra,
       getCharacterAtPosition grid (cb + shiftDirection) rb]
    else if ca = cb then
      [getCharacterAtPosition grid ca (ra + shiftDirection),
       getCharacterAtPosition grid cb (rb + shiftDirection)]
    else
      [getCharacterAtPosition grid cb ra, getCharacterAtPosition grid ca rb]
  | _, _ => []

/-- transformDigraphPairs: process complete non-overlapping pairs left to
right (the loop condition index + 1 < size leaves a trailing single letter
unprocessed). -/
def transformDigraphPairs (grid : List Nat) (shiftDirection : Int) : List Nat → List Nat
  | a :: b :: rest =>
      transformOnePair grid shiftDirection a b ++ transformDigraphPairs grid shiftDirection rest
  | _ => []

/-- The uppercase-filter-reduce pass of normalizeAndPrepareText (its first
loop over the input text). -/
def textFilter (inputText : List Nat) (shouldMapItoJ : Bool) : List Nat :=
  inputText.filterMap (textChar shouldMapItoJ)

/-- Digraph formation for encryption (the second loop of
normalizeAndPrepareText): walk the filtered text with index steps of two,
push the letter at the index, and when the two letters of the current pair
are equal push the padding character between them; both letters of the pair
are consumed either way. -/
def pairUpForEncryption : List Nat → List Nat
  | a :: b :: rest =>
      if a = b then a :: PADDING_CHAR :: b :: pairUpForEncryption rest
      else a :: b :: pairUpForEncryption rest
  | [a] => [a]
  | [] => []

/-- normalizeAndPrepareText: the filter pass, the encryption-only pairing
pass, and a final padding character exactly when the length is odd. -/
def normalizeAndPrepareText (inputText : List Nat) (shouldMapItoJ isEncryption : Bool) :
    List Nat :=
  let filtered := textFilter inputText shouldMapItoJ
  let paired := if isEncryption then pairUpForEncryption filtered else filtered
  if paired.length % 2 = 1 then paired ++ [PADDING_CHAR] else paired

/-! Basic facts about the alphabet, the uppercase map and the per-character
filters. -/

/-- Explicit form of the alphabet code list. -/
lemma alphabetCodes_eq :
    alphabetCodes = [65, 66, 67, 68, 69, 70, 71, 72, 73, 74, 75, 76, 77, 78,
      79, 80, 81, 82, 83, 84, 85, 86, 87, 88, 89, 90] := by decide

/-- Membership in the alphabet list is exactly the uppercase letter range. -/
lemma mem_alphabetCodes_iff (c : Nat) :
    c ∈ alphabetCodes ↔ FIRST_LETTER ≤ c ∧ c ≤ LAST_LETTER := by
  rw [alphabetCodes_eq]
  simp [FIRST_LETTER, LAST_LETTER]
  omega

/-- An uppercase letter is fixed by the uppercase map. -/
lemma toUpperCode_of_upper {c : Nat} (h1 : FIRST_LETTER ≤ c) (h2 : c ≤ LAST_LETTER) :
    toUpperCode c = c := by
  unfold toUpperCode
  rw [if_neg]
  unfold FIRST_LETTER at h1
  unfold LAST_LETTER at h2
  omega

/-- Characterization of the successful outcomes of the grid filter step. -/
lemma gridChar_some_iff (m : Bool) (ch u : Nat) :
    gridChar m ch = some u ↔
      toUpperCode ch = u ∧ FIRST_LETTER ≤ u ∧ u ≤ LAST_LETTER ∧ u ≠ excludedLetter m := by
  simp only [gridChar]
  unfold excludedLetter letterJ letterQ FIRST_LETTER LAST_LETTER
  cases m <;> split_ifs <;> simp_all <;> omega

/-- A letter of the reduced alphabet passes the grid filter unchanged. -/
lemma gridChar_of_permitted {m : Bool} {u : Nat} (h1 : FIRST_LETTER ≤ u)
    (h2 : u ≤ LAST_LETTER) (h3 : u ≠ excludedLetter m) : gridChar m u = some u := by
  rw [gridChar_some_iff]
  exact ⟨toUpperCode_of_upper h1 h2, h1, h2, h3⟩

/-- A letter of the reduced alphabet passes the text filter unchanged. -/
lemma textChar_of_permitted {m : Bool} {u : Nat} (h1 : FIRST_LETTER ≤ u)
    (h2 : u ≤ LAST_LETTER) (h3 : u ≠ excludedLetter m) : textChar m u = some u := by
  have hu : toUpperCode u = u := toUpperCode_of_upper h1 h2
  unfold FIRST_LETTER at h1
  unfold LAST_LETTER at h2
  unfold excludedLetter letterJ letterQ at h3
  cases m <;>
    simp only [textChar, hu, FIRST_LETTER, LAST_LETTER, letterJ, letterQ, letterI] <;>
    split_ifs <;> simp_all <;> omega

/-- Outputs of the text filter step are letters of the reduced alphabet. -/
lemma textChar_some (m : Bool) (ch u : Nat) (h : textChar m ch = some u) :
    FIRST_LETTER ≤ u ∧ u ≤ LAST_LETTER ∧ u ≠ excludedLetter m := by
  simp only [textChar] at h
  unfold excludedLetter letterI letterJ letterQ at *
  unfold FIRST_LETTER LAST_LETTER at *
  cases m <;> split_ifs at h <;> simp_all <;> omega

/-! Facts about the unique-extraction fold of buildCipherGrid. -/

/-- Rewriting rule for a fold step on a filtered-out character. -/
lemma uniqueStep_none {m : Bool} {ch : Nat} (acc : List Nat)
    (h : gridChar m ch = none) : uniqueStep m acc ch = acc := by
  unfold uniqueStep
  rw [h]

/-- Rewriting rule for a fold step on a kept character. -/
lemma uniqueStep_some {m : Bool} {ch u : Nat} (acc : List Nat)
    (h : gridChar m ch = some u) :
    uniqueStep m acc ch = if u ∈ acc then acc else acc ++ [u] := by
  unfold uniqueStep
  rw [h]

/-- Membership in the fold result: an element is either already in the
accumulator or the image of some stream character under the grid filter. -/
lemma mem_foldl_uniqueStep (m : Bool) :
    ∀ (l acc : List Nat) (x : Nat),
      x ∈ l.foldl (uniqueStep m) acc ↔ x ∈ acc ∨ ∃ c ∈ l, gridChar m c = some x := by
  intro l
  induction l with
  | nil => simp
  | cons c rest ih =>
    intro acc x
    rw [List.foldl_cons, ih]
    cases hgc : gridChar m c with
    | none =>
      rw [uniqueStep_none acc hgc]
      simp only [List.mem_cons]
      constructor
      · rintro (h | ⟨d, hd, hsome⟩)
        · exact Or.inl h
        · exact Or.inr ⟨d, Or.inr hd, hsome⟩
      · rintro (h | ⟨d, hd, hsome⟩)
        · exact Or.inl h
        · rcases hd with rfl | hd
          · rw [hgc] at hsome; cases hsome
          · exact Or.inr ⟨d, hd, hsome⟩
    | some u =>
      by_cases hu : u ∈ acc
      · rw [uniqueStep_some acc hgc, if_pos hu]
        simp only [List.mem_cons]
        constructor
        · rintro (h | ⟨d, hd, hsome⟩)
          · exact Or.inl h
          · exact Or.inr ⟨d, Or.inr hd, hsome⟩
        · rintro (h | ⟨d, hd, hsome⟩)
          · exact Or.inl h
          · rcases hd with rfl | hd
            · rw [hgc] at hsome
              cases hsome
              exact Or.inl hu
            · exact Or.inr ⟨d, hd, hsome⟩
      · rw [uniqueStep_some acc hgc, if_neg hu]
        simp only [List.mem_append, List.mem_cons, List.mem_singleton,
          List.not_mem_nil, or_false]
        constructor
        · rintro ((h | rfl) | ⟨d, hd, hsome⟩)
          · exact Or.inl h
          · exact Or.inr ⟨c, Or.inl rfl, hgc⟩
          · exact Or.inr ⟨d, Or.inr hd, hsome⟩
        · rintro (h | ⟨d, hd, hsome⟩)
          · exact Or.inl (Or.inl h)
          · rcases hd with rfl | hd
            · rw [hgc] at hsome
              cases hsome
              exact Or.inl (Or.inr rfl)
            · exact Or.inr ⟨d, hd, hsome⟩

/-- The fold preserves freedom from duplicates. -/
lemma nodup_foldl_uniqueStep (m : Bool) :
    ∀ (l acc : List Nat), acc.Nodup → (l.foldl (uniqueStep m) acc).Nodup := by
  intro l
  induction l with
  | nil => simpa
  | cons c rest ih =>
    intro acc hacc
    rw [List.foldl_cons]
    apply ih
    cases hgc : gridChar m c with
    | none => rwa [uniqueStep_none acc hgc]
    | some u =>
      by_cases hu : u ∈ acc
      · rwa [uniqueStep_some acc hgc, if_pos hu]
      · rw [uniqueStep_some acc hgc, if_neg hu]
        simp [List.nodup_append, hacc, hu]

/-- Characters on which the grid filter returns none do not change the fold. -/
lemma foldl_uniqueStep_filter (m : Bool) (p : Nat → Bool)
    (h : ∀ c, p c = false → gridChar m c = none) :
    ∀ (l acc : List Nat), (l.filter p).foldl (uniqueStep m) acc = l.foldl (uniqueStep m) acc := by
  intro l
  induction l with
  | nil => simp
  | cons c rest ih =>
    intro acc
    by_cases hp : p c = true
    · rw [List.filter_cons_of_pos hp, List.foldl_cons, List.foldl_cons, ih]
    · rw [List.filter_cons_of_neg (by simpa using hp), List.foldl_cons, ih,
        uniqueStep_none acc (h c (by simpa using hp))]

/-! Characterization of uniqueCharacters and the grid. -/

/-- Membership in uniqueCharacters is exactly the reduced alphabet: the
uppercase letters other than the one excluded by the mode. -/
lemma mem_uniqueCharacters_iff (key : List Nat) (m : Bool) (x : Nat) :
    x ∈ uniqueCharacters key m ↔
      FIRST_LETTER ≤ x ∧ x ≤ LAST_LETTER ∧ x ≠ excludedLetter m := by
  unfold uniqueCharacters
  rw [mem_foldl_uniqueStep]
  simp only [List.not_mem_nil, false_or, List.mem_append]
  constructor
  · rintro ⟨c, _, hsome⟩
    have h := (gridChar_some_iff m c x).mp hsome
    exact ⟨h.2.1, h.2.2.1, h.2.2.2⟩
  · rintro ⟨h1, h2, h3⟩
    exact ⟨x, Or.inr ((mem_alphabetCodes_iff x).mpr ⟨h1, h2⟩), gridChar_of_permitted h1 h2 h3⟩

/-- uniqueCharacters never contains a duplicate. -/
lemma nodup_uniqueCharacters (key : List Nat) (m : Bool) :
    (uniqueCharacters key m).Nodup :=
  nodup_foldl_uniqueStep m _ [] List.nodup_nil

/-- The 25 letters of the reduced alphabet, in natural order. -/
lemma alphabetCodes_filter_eq (m : Bool) :
    ((alphabetCodes.filter (fun c => c ≠ excludedLetter m)).length = 25) ∧
      ((alphabetCodes.filter (fun c => c ≠ excludedLetter m)).Nodup) := by
  cases m <;> exact ⟨by decide, by decide⟩

/-- uniqueCharacters always collects exactly 25 letters, so the grid-filling
loop indexes it in bounds. -/
lemma length_uniqueCharacters (key : List Nat) (m : Bool) :
    (uniqueCharacters key m).length = 25 := by
  have hperm :
      List.Perm (uniqueCharacters key m)
        (alphabetCodes.filter (fun c => c ≠ excludedLetter m)) := by
    apply List.perm_of_nodup_nodup_toFinset_eq (nodup_uniqueCharacters key m)
      (alphabetCodes_filter_eq m).2
    ext x
    simp only [List.mem_toFinset, List.mem_filter, mem_uniqueCharacters_iff,
      mem_alphabetCodes_iff, decide_eq_true_eq]
    tauto
  rw [hperm.length_eq, (alphabetCodes_filter_eq m).1]

/-- The take in buildCipherGrid takes everything: the grid is
uniqueCharacters itself. -/
lemma buildCipherGrid_eq (key : List Nat) (m : Bool) :
    buildCipherGrid key m = uniqueCharacters key m := by
  unfold buildCipherGrid GRID_TOTAL_CELLS GRID_SIZE
  exact List.take_of_length_le (le_of_eq (length_uniqueCharacters key m))

/-- The grid has 25 cells. -/
lemma length_buildCipherGrid (key : List Nat) (m : Bool) :
    (buildCipherGrid key m).length = 25 := by
  rw [buildCipherGrid_eq]
  exact length_uniqueCharacters key m

/-- No letter repeats in the grid. -/
lemma nodup_buildCipherGrid (key : List Nat) (m : Bool) :
    (buildCipherGrid key m).Nodup := by
  rw [buildCipherGrid_eq]
  exact nodup_uniqueCharacters key m

/-- The letters of the grid are exactly the reduced alphabet. -/
lemma mem_buildCipherGrid_iff (key : List Nat) (m : Bool) (x : Nat) :
    x ∈ buildCipherGrid key m ↔
      FIRST_LETTER ≤ x ∧ x ≤ LAST_LETTER ∧ x ≠ excludedLetter m := by
  rw [buildCipherGrid_eq]
  exact mem_uniqueCharacters_iff key m x

/-! Facts about the normalization pass. -/

/-- Letters kept by the filter pass lie in the reduced alphabet. -/
lemma mem_textFilter (t : List Nat) (m : Bool) (x : Nat) (h : x ∈ textFilter t m) :
    FIRST_LETTER ≤ x ∧ x ≤ LAST_LETTER ∧ x ≠ excludedLetter m := by
  unfold textFilter at h
  rw [List.mem_filterMap] at h
  obtain ⟨c, _, hsome⟩ := h
  exact textChar_some m c x hsome

/-- The pairing pass only adds padding characters. -/
lemma mem_pairUpForEncryption :
    ∀ (l : List Nat) (x : Nat), x ∈ pairUpForEncryption l → x ∈ l ∨ x = PADDING_CHAR
  | [], x, h => by simp [pairUpForEncryption] at h
  | [a], x, h => by
      unfold pairUpForEncryption at h
      simp only [List.mem_singleton] at h
      exact Or.inl (by simp [h])
  | a :: b :: rest, x, h => by
      unfold pairUpForEncryption at h
      split_ifs at h <;> simp only [List.mem_cons] at h ⊢
      · rcases h with rfl | rfl | rfl | h
        · exact Or.inl (Or.inl rfl)
        · exact Or.inr rfl
        · exact Or.inl (Or.inr (Or.inl rfl))
        · rcases mem_pairUpForEncryption rest x h with h | h
          · exact Or.inl (Or.inr (Or.inr h))
          · exact Or.inr h
      · rcases h with rfl | rfl | h
        · exact Or.inl (Or.inl rfl)
        · exact Or.inl (Or.inr (Or.inl rfl))
        · rcases mem_pairUpForEncryption rest x h with h | h
          · exact Or.inl (Or.inr (Or.inr h))
          · exact Or.inr h

/-- The padding character is a letter of both reduced alphabets. -/
lemma padding_permitted (m : Bool) :
    FIRST_LETTER ≤ PADDING_CHAR ∧ PADDING_CHAR ≤ LAST_LETTER ∧
      PADDING_CHAR ≠ excludedLetter m := by
  cases m <;> exact ⟨by decide, by decide, by decide⟩

/-- Every character of normalized text lies in the reduced alphabet. -/
lemma mem_normalizeAndPrepareText (t : List Nat) (m e : Bool) (x : Nat)
    (h : x ∈ normalizeAndPrepareText t m e) :
    FIRST_LETTER ≤ x ∧ x ≤ LAST_LETTER ∧ x ≠ excludedLetter m := by
  simp only [normalizeAndPrepareText] at h
  set p := if e = true then pairUpForEncryption (textFilter t m) else textFilter t m with hp
  have hstep : x ∈ p ∨ x = PADDING_CHAR := by
    split at h
    · rw [List.mem_append] at h
      rcases h with h | h
      · exact Or.inl h
      · simp only [List.mem_singleton] at h
        exact Or.inr h
    · exact Or.inl h
  rcases hstep with h | rfl
  · rw [hp] at h
    have hx : x ∈ textFilter t m ∨ x = PADDING_CHAR := by
      split at h
      · exact mem_pairUpForEncryption _ x h
      · exact Or.inl h
    rcases hx with hx | rfl
    · exact mem_textFilter t m x hx
    · exact padding_permitted m
  · exact padding_permitted m

/-- Normalized text always has even length. -/
lemma length_normalizeAndPrepareText_even (t : List Nat) (m e : Bool) :
    (normalizeAndPrepareText t m e).length % 2 = 0 := by
  simp only [normalizeAndPrepareText]
  set p := if e = true then pairUpForEncryption (textFilter t m) else textFilter t m with hp
  split
  · rename_i hodd
    rw [List.length_append]
    simp only [List.length_singleton]
    omega
  · rename_i heven
    omega

/-! Lemmas supporting the corrected grid-construction claims. -/

/-- A character uppercasing to J is dropped by the grid filter under
MergeJintoI. -/
lemma gridChar_none_of_J {c : Nat} (h : toUpperCode c = letterJ) :
    gridChar MergeJintoI c = none := by
  simp only [gridChar, h]
  rw [if_neg (by unfold letterJ FIRST_LETTER LAST_LETTER; omega)]
  rw [if_pos (by unfold letterJ; simp)]

/-- A character that does not uppercase to a letter is dropped by the grid
filter under every mode. -/
lemma gridChar_none_of_not_letter {m : Bool} {c : Nat}
    (h : toUpperCode c < FIRST_LETTER ∨ LAST_LETTER < toUpperCode c) :
    gridChar m c = none := by
  simp only [gridChar]
  rw [if_pos h]

/-- Folding over characters the grid filter drops leaves the accumulator
unchanged. -/
lemma foldl_uniqueStep_all_none (m : Bool) :
    ∀ (l acc : List Nat), (∀ c ∈ l, gridChar m c = none) →
      l.foldl (uniqueStep m) acc = acc := by
  intro l
  induction l with
  | nil => simp
  | cons c rest ih =>
    intro acc h
    rw [List.foldl_cons, uniqueStep_none acc (h c (List.mem_cons_self c rest))]
    exact ih acc (fun d hd => h d (List.mem_cons_of_mem c hd))

/-! Claim theorems on grid construction and normalization. -/

/-- Claim C4: for every key string (including empty and letter-free keys) and
every reduction mode, the grid has all 25 cells filled with 25 distinct
letters covering exactly the 26-letter alphabet minus the excluded letter;
uniqueCharacters always reaches length 25, so the grid-fill indexing stays in
bounds and construction cannot fail. -/
theorem claim_C4_grid_uniqueness (key : List Nat) (m : Bool) :
    (uniqueCharacters key m).length = 25 ∧
    (buildCipherGrid key m).length = GRID_TOTAL_CELLS ∧
    (buildCipherGrid key m).Nodup ∧
    (∀ c, c ∈ buildCipherGrid key m ↔ c ∈ alphabetCodes ∧ c ≠ excludedLetter m) := by
  refine ⟨length_uniqueCharacters key m, length_buildCipherGrid key m,
    nodup_buildCipherGrid key m, fun c => ?_⟩
  rw [mem_buildCipherGrid_iff, mem_alphabetCodes_iff]
  tauto

/-- Claim C5: under MergeJintoI the letter J appears neither in the grid nor
in normalized text, and under DropQ the letter Q appears in neither, for
every key, input text, and direction of use. -/
theorem claim_C5_mode_exclusivity (key text : List Nat) (e : Bool) :
    letterJ ∉ buildCipherGrid key MergeJintoI ∧
    letterJ ∉ normalizeAndPrepareText text MergeJintoI e ∧
    letterQ ∉ buildCipherGrid key DropQ ∧
    letterQ ∉ normalizeAndPrepareText text DropQ e := by
  refine ⟨fun h => ?_, fun h => ?_, fun h => ?_, fun h => ?_⟩
  · exact ((mem_buildCipherGrid_iff key MergeJintoI letterJ).mp h).2.2 rfl
  · exact (mem_normalizeAndPrepareText text MergeJintoI e letterJ h).2.2 rfl
  · exact ((mem_buildCipherGrid_iff key DropQ letterQ).mp h).2.2 rfl
  · exact (mem_normalizeAndPrepareText text DropQ e letterQ h).2.2 rfl

/-- Claim C6: decryption preparation applies no duplicate separation; it is
exactly the filtered letter sequence with one padding letter appended iff
that sequence has odd length. -/
theorem claim_C6_decrypt_preparation (text : List Nat) (m : Bool) :
    normalizeAndPrepareText text m false =
      textFilter text m ++
        (if (textFilter text m).length % 2 = 1 then [PADDING_CHAR] else []) := by
  simp only [normalizeAndPrepareText, Bool.false_eq_true, if_false]
  split <;> simp

/-- Claim C9: normalizing HELLO for encryption under MergeJintoI yields
exactly the letters H, E, L, X, L, O, the digraphs HE LX LO with the padding
X inserted between the duplicate pair L L. -/
theorem claim_C9_padding_example :
    normalizeAndPrepareText (strCodes ("HELLO")) MergeJintoI true =
      strCodes ("HELXLO") := by decide

/-- Claim C3 fails on the code: the pairing scan does not reconsider the
second letter of an equal pair, so AABB prepares to AXABXB, not AXABBX, and
AAA prepares to AXAA, not AXAXAX. -/
theorem claim_C3_counterexample :
    normalizeAndPrepareText (strCodes ("AABB")) MergeJintoI true ≠
        strCodes ("AXABBX") ∧
    normalizeAndPrepareText (strCodes ("AAA")) MergeJintoI true ≠
        strCodes ("AXAXAX") := by decide

/-- Claim C3 amended: the pairing step walks the filtered letters in
non-overlapping pairs at even indices; a pair (a, b) with a = b emits a, the
padding letter, then b, consuming both letters. Equal digraphs can therefore
survive in the prepared sequence: AABB prepares to AXABXB, AAA prepares to
AXAA (with the equal digraph AA), and XX prepares to XXXX. -/
theorem claim_C3_pairing_fixed_stride :
    (∀ (a b : Nat) (rest : List Nat),
      pairUpForEncryption (a :: b :: rest) =
        if a = b then a :: PADDING_CHAR :: b :: pairUpForEncryption rest
        else a :: b :: pairUpForEncryption rest) ∧
    normalizeAndPrepareText (strCodes ("AABB")) MergeJintoI true =
        strCodes ("AXABXB") ∧
    normalizeAndPrepareText (strCodes ("AAA")) MergeJintoI true =
        strCodes ("AXAA") ∧
    normalizeAndPrepareText (strCodes ("XX")) MergeJintoI true =
        strCodes ("XXXX") :=
  ⟨fun a b rest => rfl, by decide, by decide, by decide⟩

/-- Claim C2 fails on the code: under MergeJintoI grid construction skips J
instead of rewriting it to I, so the keys JA and IA give different grids and
the cell where the J of JA occurred holds A, not I. -/
theorem claim_C2_counterexample :
    buildCipherGrid (strCodes ("JA")) MergeJintoI ≠
        buildCipherGrid (strCodes ("IA")) MergeJintoI ∧
    (buildCipherGrid (strCodes ("JA")) MergeJintoI).getD 0 0 ≠ letterI := by decide

/-- Claim C2 amended: under MergeJintoI, grid construction discards every J
of the key-plus-alphabet stream before deduplication, so the grid equals the
one built from the key with all J characters removed (when that removal
leaves the key non-empty, since an emptied key would instead trigger the
default key), and for the key JA the first grid cell holds the letter A. -/
theorem claim_C2_grid_skips_J (key : List Nat)
    (h : key.filter (fun c => toUpperCode c ≠ letterJ) ≠ []) :
    buildCipherGrid key MergeJintoI =
      buildCipherGrid (key.filter (fun c => toUpperCode c ≠ letterJ)) MergeJintoI ∧
    (buildCipherGrid (strCodes ("JA")) MergeJintoI).getD 0 0 = 65 := by
  refine ⟨?_, by decide⟩
  have hkey : key ≠ [] := by
    intro hk
    rw [hk] at h
    exact h rfl
  unfold buildCipherGrid uniqueCharacters
  rw [if_neg hkey, if_neg h, List.foldl_append, List.foldl_append]
  rw [foldl_uniqueStep_filter MergeJintoI (fun c => toUpperCode c ≠ letterJ)
    (fun c hc => gridChar_none_of_J (by simpa using hc)) key []]

/-- Witness for claim C2 at the concrete key JA. -/
theorem claim_C2_grid_skips_J_witness :
    (strCodes ("JA")).filter (fun c => toUpperCode c ≠ letterJ) ≠ [] ∧
    (buildCipherGrid (strCodes ("JA")) MergeJintoI =
      buildCipherGrid ((strCodes ("JA")).filter (fun c => toUpperCode c ≠ letterJ))
        MergeJintoI ∧
    (buildCipherGrid (strCodes ("JA")) MergeJintoI).getD 0 0 = 65) :=
  ⟨by decide, claim_C2_grid_skips_J (strCodes ("JA")) (by decide)⟩

/-- Claim C10: the fixed default key is KEYWORD: the empty key builds the
same grid as the key KEYWORD under every mode, and only the empty key
triggers the substitution, since a non-empty key with no letters yields the
plain alphabetical grid instead. -/
theorem claim_C10_default_key :
    (∀ m : Bool, buildCipherGrid [] m = buildCipherGrid DEFAULT_KEY m) ∧
    (∀ (key : List Nat) (m : Bool), key ≠ [] →
      (∀ c ∈ key, toUpperCode c < FIRST_LETTER ∨ LAST_LETTER < toUpperCode c) →
      buildCipherGrid key m =
        (alphabetCodes.foldl (uniqueStep m) []).take GRID_TOTAL_CELLS) := by
  constructor
  · intro m
    rfl
  · intro key m hkey hnoletter
    unfold buildCipherGrid uniqueCharacters
    rw [if_neg hkey, List.foldl_append,
      foldl_uniqueStep_all_none m key []
        (fun c hc => gridChar_none_of_not_letter (hnoletter c hc))]

/-- Witness for claim C10 at the concrete letter-free key consisting of the
digit 1. -/
theorem claim_C10_default_key_witness :
    ([49] : List Nat) ≠ [] ∧
    (∀ c ∈ ([49] : List Nat),
      toUpperCode c < FIRST_LETTER ∨ LAST_LETTER < toUpperCode c) ∧
    buildCipherGrid [49] MergeJintoI =
      (alphabetCodes.foldl (uniqueStep MergeJintoI) []).take GRID_TOTAL_CELLS :=
  ⟨by decide, by decide,
    claim_C10_default_key.2 [49] MergeJintoI (by decide) (by decide)⟩

/-! Wrap-around arithmetic of getCharacterAtPosition. -/

/-- Truncated remainder of two natural numbers as integers is the natural
remainder (definitional shape of Int.tmod). -/
lemma tmod_ofNat (m n : Nat) : (Int.ofNat m).tmod (Int.ofNat n) = Int.ofNat (m % n) := rfl

/-- Truncated remainder of a negative number by a natural number
(definitional shape of Int.tmod). -/
lemma tmod_negSucc (m n : Nat) :
    (Int.negSucc m).tmod (Int.ofNat n) = -Int.ofNat ((m + 1) % n) := rfl

/-- The C wrap idiom (i % 5 + 5) % 5 computes the mathematical remainder
modulo 5. -/
lemma wrapIndex_eq (x : Int) : (wrapIndex x : Int) = x % 5 := by
  unfold wrapIndex
  cases x with
  | ofNat n =>
    rw [show ((5 : Int) = Int.ofNat 5) from rfl, tmod_ofNat]
    rw [show (Int.ofNat (n % 5) + Int.ofNat 5 = Int.ofNat (n % 5 + 5)) from rfl, tmod_ofNat]
    simp only [Int.ofNat_eq_coe]
    push_cast
    omega
  | negSucc m =>
    rw [show ((5 : Int) = Int.ofNat 5) from rfl, tmod_negSucc]
    have h2 : (-Int.ofNat ((m + 1) % 5) + Int.ofNat 5) = Int.ofNat (5 - (m + 1) % 5) := by
      simp only [Int.ofNat_eq_coe]
      push_cast
      omega
    rw [h2, tmod_ofNat]
    have h3 : (Int.negSucc m) = -((m : Int) + 1) := by
      simp [Int.negSucc_eq]
    rw [h3]
    simp only [Int.ofNat_eq_coe]
    push_cast
    omega

/-- Wrapped indices always land in the grid range. -/
lemma wrapIndex_lt (x : Int) : wrapIndex x < 5 := by
  have h := wrapIndex_eq x
  omega

/-- A wrapped in-range index is itself. -/
lemma wrapIndex_coe {c : Nat} (h : c < 5) : wrapIndex (c : Int) = c := by
  have heq := wrapIndex_eq (c : Int)
  omega

/-- Grid reads hit a real cell: on a 25-cell grid, getCharacterAtPosition is
List.get at the wrapped flat index. -/
lemma getCharacterAtPosition_eq_get (g : List Nat) (hg : g.length = 25)
    (col row : Int) :
    ∃ h : wrapIndex row * 5 + wrapIndex col < g.length,
      getCharacterAtPosition g col row = g.get ⟨wrapIndex row * 5 + wrapIndex col, h⟩ := by
  have hrow := wrapIndex_lt row
  have hcol := wrapIndex_lt col
  have hidx : wrapIndex row * 5 + wrapIndex col < g.length := by omega
  refine ⟨hidx, ?_⟩
  unfold getCharacterAtPosition GRID_SIZE
  exact List.getD_eq_get g 0 hidx

/-- Every grid read returns a member of the grid. -/
lemma getCharacterAtPosition_mem (g : List Nat) (hg : g.length = 25)
    (col row : Int) : getCharacterAtPosition g col row ∈ g := by
  obtain ⟨h, heq⟩ := getCharacterAtPosition_eq_get g hg col row
  rw [heq]
  exact List.get_mem g _ _

/-- Claim C7: the cell lookup reduces both indices modulo 5 into [0,5) for
every integer input, with -1 wrapping to 4 and 5 wrapping to 0, and on the
grids the program builds every lookup returns a letter of the grid. -/
theorem claim_C7_wraparound :
    (∀ i : Int, wrapIndex i < GRID_SIZE ∧ (wrapIndex i : Int) = i % GRID_SIZE) ∧
    wrapIndex (-1) = 4 ∧
    wrapIndex 5 = 0 ∧
    (∀ (key : List Nat) (m : Bool) (col row : Int),
      getCharacterAtPosition (buildCipherGrid key m) col row ∈ buildCipherGrid key m) := by
  refine ⟨fun i => ⟨wrapIndex_lt i, ?_⟩, by decide, by decide, fun key m col row => ?_⟩
  · rw [wrapIndex_eq]
    unfold GRID_SIZE
    push_cast
    rfl
  · exact getCharacterAtPosition_mem _ (length_buildCipherGrid key m) col row

/-! Structural facts about transformDigraphPairs. -/

/-- Equation: the empty sequence transforms to nothing. -/
lemma transformDigraphPairs_nil (g : List Nat) (d : Int) :
    transformDigraphPairs g d [] = [] := rfl

/-- Equation: a trailing single letter is silently skipped. -/
lemma transformDigraphPairs_single (g : List Nat) (d : Int) (a : Nat) :
    transformDigraphPairs g d [a] = [] := rfl

/-- Equation: the loop peels one complete pair at a time. -/
lemma transformDigraphPairs_cons (g : List Nat) (d : Int) (a b : Nat) (rest : List Nat) :
    transformDigraphPairs g d (a :: b :: rest) =
      transformOnePair g d a b ++ transformDigraphPairs g d rest := rfl

/-- A processed pair yields no letters or exactly two. -/
lemma transformOnePair_cases (g : List Nat) (d : Int) (a b : Nat) :
    transformOnePair g d a b = [] ∨ (transformOnePair g d a b).length = 2 := by
  unfold transformOnePair
  cases ha : findCharacterPosition g a with
  | none =>
    cases hb : findCharacterPosition g b with
    | none => exact Or.inl rfl
    | some q =>
      obtain ⟨cb, rb⟩ := q
      exact Or.inl rfl
  | some p =>
    obtain ⟨ca, ra⟩ := p
    cases hb : findCharacterPosition g b with
    | none => exact Or.inl rfl
    | some q =>
      obtain ⟨cb, rb⟩ := q
      right
      simp only []
      split_ifs <;> rfl

/-- A pair one of whose letters is missing from the grid contributes
nothing. -/
lemma transformOnePair_eq_nil (g : List Nat) (d : Int) (a b : Nat)
    (h : findCharacterPosition g a = none ∨ findCharacterPosition g b = none) :
    transformOnePair g d a b = [] := by
  unfold transformOnePair
  cases ha : findCharacterPosition g a with
  | none =>
    cases hb : findCharacterPosition g b with
    | none => rfl
    | some q =>
      obtain ⟨cb, rb⟩ := q
      rfl
  | some p =>
    obtain ⟨ca, ra⟩ := p
    cases hb : findCharacterPosition g b with
    | none => rfl
    | some q =>
      rw [ha, hb] at h
      rcases h with h | h <;> cases h

/-- On a 25-cell grid, all letters a processed pair produces are grid
letters. -/
lemma mem_transformOnePair (g : List Nat) (hg : g.length = 25) (d : Int)
    (a b x : Nat) (h : x ∈ transformOnePair g d a b) : x ∈ g := by
  unfold transformOnePair at h
  cases ha : findCharacterPosition g a with
  | none =>
    rw [ha] at h
    cases hb : findCharacterPosition g b with
    | none =>
      rw [hb] at h
      cases h
    | some q =>
      obtain ⟨cb, rb⟩ := q
      rw [hb] at h
      cases h
  | some p =>
    obtain ⟨ca, ra⟩ := p
    rw [ha] at h
    cases hb : findCharacterPosition g b with
    | none =>
      rw [hb] at h
      cases h
    | some q =>
      obtain ⟨cb, rb⟩ := q
      rw [hb] at h
      simp only [] at h
      split_ifs at h <;>
        simp only [List.mem_cons, List.not_mem_nil, or_false] at h <;>
        rcases h with rfl | rfl <;>
        exact getCharacterAtPosition_mem g hg _ _

/-- The transform output always has even length. -/
lemma length_transformDigraphPairs_even (g : List Nat) (d : Int) :
    ∀ s : List Nat, (transformDigraphPairs g d s).length % 2 = 0
  | [] => by rw [transformDigraphPairs_nil]; rfl
  | [a] => by rw [transformDigraphPairs_single]; rfl
  | a :: b :: rest => by
      rw [transformDigraphPairs_cons, List.length_append]
      have h1 := transformOnePair_cases g d a b
      have h2 := length_transformDigraphPairs_even g d rest
      have h3 : (transformOnePair g d a b).length = 0 ∨
          (transformOnePair g d a b).length = 2 := by
        rcases h1 with h1 | h1
        · exact Or.inl (by rw [h1]; rfl)
        · exact Or.inr h1
      omega

/-- A trailing single letter appended to an even-length sequence changes
nothing. -/
lemma transformDigraphPairs_append_single (g : List Nat) (d : Int) :
    ∀ (s : List Nat) (a : Nat), s.length % 2 = 0 →
      transformDigraphPairs g d (s ++ [a]) = transformDigraphPairs g d s
  | [], a, _ => rfl
  | [x], a, h => by simp at h
  | x :: y :: rest, a, h => by
      rw [List.cons_append, List.cons_append, transformDigraphPairs_cons,
        transformDigraphPairs_cons,
        transformDigraphPairs_append_single g d rest a
          (by simp only [List.length_cons] at h; omega)]

/-- On a 25-cell grid all transform output letters are grid letters. -/
lemma mem_transformDigraphPairs (g : List Nat) (hg : g.length = 25) (d : Int) :
    ∀ (s : List Nat) (x : Nat), x ∈ transformDigraphPairs g d s → x ∈ g
  | [], x, h => by rw [transformDigraphPairs_nil] at h; cases h
  | [a], x, h => by rw [transformDigraphPairs_single] at h; cases h
  | a :: b :: rest, x, h => by
      rw [transformDigraphPairs_cons, List.mem_append] at h
      rcases h with h | h
      · exact mem_transformOnePair g hg d a b x h
      · exact mem_transformDigraphPairs g hg d rest x h

/-- Claim C8: transform processes only complete pairs (a trailing single
letter is skipped, and a pair with a letter absent from the grid contributes
nothing), so its output always has even length and, on the grids the program
builds, consists only of grid letters. -/
theorem claim_C8_defensive_even_output :
    (∀ (g : List Nat) (d : Int) (s : List Nat),
      (transformDigraphPairs g d s).length % 2 = 0) ∧
    (∀ (g : List Nat) (d : Int) (s : List Nat) (a : Nat), s.length % 2 = 0 →
      transformDigraphPairs g d (s ++ [a]) = transformDigraphPairs g d s) ∧
    (∀ (g : List Nat) (d : Int) (a b : Nat) (rest : List Nat),
      findCharacterPosition g a = none ∨ findCharacterPosition g b = none →
      transformDigraphPairs g d (a :: b :: rest) = transformDigraphPairs g d rest) ∧
    (∀ (key : List Nat) (m : Bool) (d : Int) (s : List Nat) (x : Nat),
      x ∈ transformDigraphPairs (buildCipherGrid key m) d s →
      x ∈ buildCipherGrid key m) := by
  refine ⟨fun g d s => length_transformDigraphPairs_even g d s,
    fun g d s a h => transformDigraphPairs_append_single g d s a h,
    fun g d a b rest h => ?_,
    fun key m d s x h =>
      mem_transformDigraphPairs _ (length_buildCipherGrid key m) d s x h⟩
  rw [transformDigraphPairs_cons, transformOnePair_eq_nil g d a b h, List.nil_append]

/-- Witness for claim C8: the even-length and missing-letter hypotheses are
dischargeable at concrete inputs (the two-letter sequence HE with trailing A
appended, and a pair containing the non-letter code 0). -/
theorem claim_C8_defensive_even_output_witness :
    (([72, 69] : List Nat).length % 2 = 0 ∧
      transformDigraphPairs (buildCipherGrid [] MergeJintoI) 1 ([72, 69] ++ [65]) =
        transformDigraphPairs (buildCipherGrid [] MergeJintoI) 1 [72, 69]) ∧
    (findCharacterPosition (buildCipherGrid [] MergeJintoI) 0 = none ∧
      transformDigraphPairs (buildCipherGrid [] MergeJintoI) 1 (0 :: 69 :: [72, 69]) =
        transformDigraphPairs (buildCipherGrid [] MergeJintoI) 1 [72, 69]) :=
  ⟨⟨by decide,
    claim_C8_defensive_even_output.2.1 (buildCipherGrid [] MergeJintoI) 1 [72, 69] 65
      (by decide)⟩,
   ⟨by decide,
    claim_C8_defensive_even_output.2.2.1 (buildCipherGrid [] MergeJintoI) 1 0 69 [72, 69]
      (Or.inl (by decide))⟩⟩

/-! Position lookup facts used for the round-trip law. -/

/-- A found flat index is in bounds and points at the character. -/
lemma findFlatIndex_some :
    ∀ {g : List Nat} {c i : Nat}, findFlatIndex g c = some i →
      ∃ h : i < g.length, g.get ⟨i, h⟩ = c := by
  intro g
  induction g with
  | nil => intro c i h; cases h
  | cons x rest ih =>
    intro c i h
    unfold findFlatIndex at h
    split_ifs at h with hx
    · cases h
      exact ⟨Nat.succ_pos _, hx⟩
    · rw [Option.map_eq_some'] at h
      obtain ⟨j, hj, rfl⟩ := h
      obtain ⟨hlt, hget⟩ := ih hj
      exact ⟨by simpa using Nat.succ_lt_succ hlt, hget⟩

/-- Every grid member has a flat index. -/
lemma findFlatIndex_of_mem :
    ∀ {g : List Nat} {c : Nat}, c ∈ g → ∃ i, findFlatIndex g c = some i := by
  intro g
  induction g with
  | nil => intro c h; cases h
  | cons x rest ih =>
    intro c h
    unfold findFlatIndex
    by_cases hx : x = c
    · exact ⟨0, by rw [if_pos hx]⟩
    · rw [List.mem_cons] at h
      rcases h with rfl | h
      · exact absurd rfl hx
      · obtain ⟨j, hj⟩ := ih h
        exact ⟨j + 1, by rw [if_neg hx, hj]; rfl⟩

/-- On a duplicate-free grid the scan finds exactly the cell we read from. -/
lemma findFlatIndex_get :
    ∀ {g : List Nat}, g.Nodup → ∀ {i : Nat} (h : i < g.length),
      findFlatIndex g (g.get ⟨i, h⟩) = some i := by
  intro g
  induction g with
  | nil => intro _ i h; cases h
  | cons x rest ih =>
    intro hnd i h
    rw [List.nodup_cons] at hnd
    cases i with
    | zero => simp [findFlatIndex]
    | succ j =>
      have hj : j < rest.length := by simpa using h
      have hget : (x :: rest).get ⟨j + 1, h⟩ = rest.get ⟨j, hj⟩ := rfl
      rw [hget]
      unfold findFlatIndex
      rw [if_neg (fun hx => hnd.1 (by rw [hx]; exact List.get_mem rest j hj)), ih hnd.2 hj]
      rfl

/-- findCharacterPosition of a cell returns its column and row. -/
lemma findCharacterPosition_get (g : List Nat) (hnd : g.Nodup) {i : Nat}
    (h : i < g.length) :
    findCharacterPosition g (g.get ⟨i, h⟩) = some (i % 5, i / 5) := by
  unfold findCharacterPosition GRID_SIZE
  rw [findFlatIndex_get hnd h]
  rfl

/-- findCharacterPosition of a member succeeds with its flat-index
coordinates, which are in range. -/
lemma findCharacterPosition_of_mem (g : List Nat) (hg : g.length = 25)
    {a : Nat} (ha : a ∈ g) :
    ∃ ca ra : Nat, findCharacterPosition g a = some (ca, ra) ∧ ca < 5 ∧ ra < 5 ∧
      ∃ h : ra * 5 + ca < g.length, g.get ⟨ra * 5 + ca, h⟩ = a := by
  obtain ⟨i, hi⟩ := findFlatIndex_of_mem ha
  obtain ⟨hlt, hget⟩ := findFlatIndex_some hi
  refine ⟨i % 5, i / 5, ?_, by omega, by omega, ?_⟩
  · unfold findCharacterPosition GRID_SIZE
    rw [hi]
    rfl
  · have hidx : i / 5 * 5 + i % 5 = i := by omega
    refine ⟨by omega, ?_⟩
    rw [← hget]
    congr 1
    exact Fin.ext (by simpa using hidx)

/-- Undoing a wrapped shift: shifting a wrapped, shifted in-range index back
recovers the index. -/
lemma wrap_shift_inverse {c : Nat} (hc : c < 5) (d : Int) :
    wrapIndex ((wrapIndex ((c : Int) + d) : Int) + (-d)) = c := by
  have h1 := wrapIndex_eq ((c : Int) + d)
  have h2 := wrapIndex_eq ((wrapIndex ((c : Int) + d) : Int) + (-d))
  omega

/-- Convenience form of the grid read: a read whose wrapped flat index is
known is a List.get. -/
lemma getCharacterAtPosition_get (g : List Nat) (hg : g.length = 25)
    (col row : Int) {j : Nat} (hj : j < g.length)
    (h : wrapIndex row * 5 + wrapIndex col = j) :
    getCharacterAtPosition g col row = g.get ⟨j, hj⟩ := by
  obtain ⟨h25, heq⟩ := getCharacterAtPosition_eq_get g hg col row
  rw [heq]
  congr 1
  exact Fin.ext (by simpa using h)

/-- Core of the round-trip law: a pair of grid letters encodes to two grid
letters whose decoding with the opposite direction restores the pair; the
same-row and same-column shifts are undone by the opposite shift and the
rectangle rule is its own inverse. -/
lemma transformOnePair_roundtrip (g : List Nat) (hg : g.length = 25)
    (hnd : g.Nodup) (d : Int) {a b : Nat} (ha : a ∈ g) (hb : b ∈ g) :
    ∃ e1 e2 : Nat, transformOnePair g d a b = [e1, e2] ∧ e1 ∈ g ∧ e2 ∈ g ∧
      transformOnePair g (-d) e1 e2 = [a, b] := by
  obtain ⟨ca, ra, hfa, hca, hra, hia, hgeta⟩ := findCharacterPosition_of_mem g hg ha
  obtain ⟨cb, rb, hfb, hcb, hrb, hib, hgetb⟩ := findCharacterPosition_of_mem g hg hb
  unfold transformOnePair
  rw [hfa, hfb]
  simp only []
  by_cases hrr : ra = rb
  · subst hrr
    rw [if_pos rfl]
    set wa := wrapIndex ((ca : Int) + d) with hwa_def
    set wb := wrapIndex ((cb : Int) + d) with hwb_def
    have hwa : wa < 5 := wrapIndex_lt _
    have hwb : wb < 5 := wrapIndex_lt _
    have hja : ra * 5 + wa < g.length := by omega
    have hjb : ra * 5 + wb < g.length := by omega
    have he1 : getCharacterAtPosition g ((ca : Int) + d) (ra : Int) =
        g.get ⟨ra * 5 + wa, hja⟩ :=
      getCharacterAtPosition_get g hg _ _ hja (by rw [wrapIndex_coe hra])
    have he2 : getCharacterAtPosition g ((cb : Int) + d) (ra : Int) =
        g.get ⟨ra * 5 + wb, hjb⟩ :=
      getCharacterAtPosition_get g hg _ _ hjb (by rw [wrapIndex_coe hra])
    refine ⟨g.get ⟨ra * 5 + wa, hja⟩, g.get ⟨ra * 5 + wb, hjb⟩,
      by rw [he1, he2], List.get_mem g _ _, List.get_mem g _ _, ?_⟩
    rw [findCharacterPosition_get g hnd hja, findCharacterPosition_get g hnd hjb]
    have hma : (ra * 5 + wa) % 5 = wa := by omega
    have hda : (ra * 5 + wa) / 5 = ra := by omega
    have hmb : (ra * 5 + wb) % 5 = wb := by omega
    have hdb : (ra * 5 + wb) / 5 = ra := by omega
    rw [hma, hda, hmb, hdb]
    simp only []
    rw [if_pos trivial]
    have hr1 : getCharacterAtPosition g ((wa : Int) + -d) (ra : Int) =
        g.get ⟨ra * 5 + ca, hia⟩ := by
      refine getCharacterAtPosition_get g hg _ _ hia ?_
      rw [wrapIndex_coe hra, hwa_def, wrap_shift_inverse hca d]
    have hr2 : getCharacterAtPosition g ((wb : Int) + -d) (ra : Int) =
        g.get ⟨ra * 5 + cb, hib⟩ := by
      refine getCharacterAtPosition_get g hg _ _ hib ?_
      rw [wrapIndex_coe hra, hwb_def, wrap_shift_inverse hcb d]
    rw [hr1, hr2, hgeta, hgetb]
  · by_cases hcc : ca = cb
    · subst hcc
      rw [if_neg hrr, if_pos rfl]
      set wra := wrapIndex ((ra : Int) + d) with hwra_def
      set wrb := wrapIndex ((rb : Int) + d) with hwrb_def
      have hwra : wra < 5 := wrapIndex_lt _
      have hwrb : wrb < 5 := wrapIndex_lt _
      have hja : wra * 5 + ca < g.length := by omega
      have hjb : wrb * 5 + ca < g.length := by omega
      have he1 : getCharacterAtPosition g (ca : Int) ((ra : Int) + d) =
          g.get ⟨wra * 5 + ca, hja⟩ :=
        getCharacterAtPosition_get g hg _ _ hja (by rw [wrapIndex_coe hca])
      have he2 : getCharacterAtPosition g (ca : Int) ((rb : Int) + d) =
          g.get ⟨wrb * 5 + ca, hjb⟩ :=
        getCharacterAtPosition_get g hg _ _ hjb (by rw [wrapIndex_coe hca])
      refine ⟨g.get ⟨wra * 5 + ca, hja⟩, g.get ⟨wrb * 5 + ca, hjb⟩,
        by rw [he1, he2], List.get_mem g _ _, List.get_mem g _ _, ?_⟩
      rw [findCharacterPosition_get g hnd hja, findCharacterPosition_get g hnd hjb]
      have hma : (wra * 5 + ca) % 5 = ca := by omega
      have hda : (wra * 5 + ca) / 5 = wra := by omega
      have hmb : (wrb * 5 + ca) % 5 = ca := by omega
      have hdb : (wrb * 5 + ca) / 5 = wrb := by omega
      rw [hma, hda, hmb, hdb]
      simp only []
      have hne : wra ≠ wrb := by
        have h1 := wrapIndex_eq ((ra : Int) + d)
        have h2 := wrapIndex_eq ((rb : Int) + d)
        intro heq
        apply hrr
        omega
      rw [if_neg hne, if_pos trivial]
      have hr1 : getCharacterAtPosition g (ca : Int) ((wra : Int) + -d) =
          g.get ⟨ra * 5 + ca, hia⟩ := by
        refine getCharacterAtPosition_get g hg _ _ hia ?_
        rw [wrapIndex_coe hca, hwra_def, wrap_shift_inverse hra d]
      have hr2 : getCharacterAtPosition g (ca : Int) ((wrb : Int) + -d) =
          g.get ⟨rb * 5 + ca, hib⟩ := by
        refine getCharacterAtPosition_get g hg _ _ hib ?_
        rw [wrapIndex_coe hca, hwrb_def, wrap_shift_inverse hrb d]
      rw [hr1, hr2, hgeta, hgetb]
    · rw [if_neg hrr, if_neg hcc]
      have hja : ra * 5 + cb < g.length := by omega
      have hjb : rb * 5 + ca < g.length := by omega
      have he1 : getCharacterAtPosition g (cb : Int) (ra : Int) =
          g.get ⟨ra * 5 + cb, hja⟩ :=
        getCharacterAtPosition_get g hg _ _ hja
          (by rw [wrapIndex_coe hra, wrapIndex_coe hcb])
      have he2 : getCharacterAtPosition g (ca : Int) (rb : Int) =
          g.get ⟨rb * 5 + ca, hjb⟩ :=
        getCharacterAtPosition_get g hg _ _ hjb
          (by rw [wrapIndex_coe hrb, wrapIndex_coe hca])
      refine ⟨g.get ⟨ra * 5 + cb, hja⟩, g.get ⟨rb * 5 + ca, hjb⟩,
        by rw [he1, he2], List.get_mem g _ _, List.get_mem g _ _, ?_⟩
      rw [findCharacterPosition_get g hnd hja, findCharacterPosition_get g hnd hjb]
      have hma : (ra * 5 + cb) % 5 = cb := by omega
      have hda : (ra * 5 + cb) / 5 = ra := by omega
      have hmb : (rb * 5 + ca) % 5 = ca := by omega
      have hdb : (rb * 5 + ca) / 5 = rb := by omega
      rw [hma, hda, hmb, hdb]
      simp only []
      rw [if_neg hrr, if_neg (fun h => hcc h.symm)]
      have hr1 : getCharacterAtPosition g (ca : Int) (ra : Int) =
          g.get ⟨ra * 5 + ca, hia⟩ :=
        getCharacterAtPosition_get g hg _ _ hia
          (by rw [wrapIndex_coe hra, wrapIndex_coe hca])
      have hr2 : getCharacterAtPosition g (cb : Int) (rb : Int) =
          g.get ⟨rb * 5 + cb, hib⟩ :=
        getCharacterAtPosition_get g hg _ _ hib
          (by rw [wrapIndex_coe hrb, wrapIndex_coe hcb])
      rw [hr1, hr2, hgeta, hgetb]

/-- Round trip of the transform on even-length sequences of grid letters. -/
lemma transformDigraphPairs_roundtrip (g : List Nat) (hg : g.length = 25)
    (hnd : g.Nodup) (d : Int) :
    ∀ s : List Nat, (∀ c ∈ s, c ∈ g) → s.length % 2 = 0 →
      transformDigraphPairs g (-d) (transformDigraphPairs g d s) = s
  | [], _, _ => rfl
  | [a], _, hlen => by simp at hlen
  | a :: b :: rest, hmem, hlen => by
      obtain ⟨e1, e2, henc, he1, he2, hdec⟩ :=
        transformOnePair_roundtrip g hg hnd d (hmem a (by simp)) (hmem b (by simp))
      rw [transformDigraphPairs_cons, henc]
      have hsplit : ([e1, e2] : List Nat) ++ transformDigraphPairs g d rest =
          e1 :: e2 :: transformDigraphPairs g d rest := rfl
      rw [hsplit, transformDigraphPairs_cons, hdec,
        transformDigraphPairs_roundtrip g hg hnd d rest
          (fun c hc => hmem c (by simp [hc]))
          (by simp only [List.length_cons] at hlen; omega)]
      rfl

/-- Letters of grid-letter sequences survive the text filter unchanged. -/
lemma textFilter_of_grid (key : List Nat) (m : Bool) :
    ∀ s : List Nat, (∀ c ∈ s, c ∈ buildCipherGrid key m) → textFilter s m = s := by
  intro s
  induction s with
  | nil => intro _; rfl
  | cons c rest ih =>
    intro hmem
    have hc := (mem_buildCipherGrid_iff key m c).mp (hmem c (by simp))
    unfold textFilter
    rw [List.filterMap_cons, textChar_of_permitted hc.1 hc.2.1 hc.2.2]
    have := ih (fun x hx => hmem x (by simp [hx]))
    unfold textFilter at this
    rw [this]

/-- Decryption preparation is the identity on even-length sequences of grid
letters, such as ciphertext produced over the same grid and mode. -/
lemma normalizeAndPrepareText_decrypt_id (key : List Nat) (m : Bool)
    (s : List Nat) (hmem : ∀ c ∈ s, c ∈ buildCipherGrid key m)
    (heven : s.length % 2 = 0) : normalizeAndPrepareText s m false = s := by
  simp only [normalizeAndPrepareText, Bool.false_eq_true, if_false]
  rw [textFilter_of_grid key m s hmem, if_neg (by omega)]

/-- Every letter of an encryption-prepared text lies in the matching grid. -/
lemma normalizeAndPrepareText_mem_grid (key t : List Nat) (m e : Bool) :
    ∀ c ∈ normalizeAndPrepareText t m e, c ∈ buildCipherGrid key m := fun c hc =>
  (mem_buildCipherGrid_iff key m c).mpr (mem_normalizeAndPrepareText t m e c hc)

/-- Claim C1: for every plaintext consisting only of ASCII letters with no
two equal adjacent letters and even length, and for every key and reduction
mode, decrypting the encryption over the same grid reconstructs the prepared
digraph sequence. -/
theorem claim_C1_round_trip (key ptext : List Nat) (m : Bool)
    (hletters : ∀ c ∈ ptext,
      (FIRST_LETTER ≤ c ∧ c ≤ LAST_LETTER) ∨ (97 ≤ c ∧ c ≤ 122))
    (hadj : ptext.Chain' (fun x y => x ≠ y))
    (heven : ptext.length % 2 = 0) :
    transformDigraphPairs (buildCipherGrid key m) (-1)
      (normalizeAndPrepareText
        (transformDigraphPairs (buildCipherGrid key m) 1
          (normalizeAndPrepareText ptext m true)) m false) =
      normalizeAndPrepareText ptext m true := by
  have hg := length_buildCipherGrid key m
  have hnd := nodup_buildCipherGrid key m
  have hpm : ∀ c ∈ normalizeAndPrepareText ptext m true, c ∈ buildCipherGrid key m :=
    normalizeAndPrepareText_mem_grid key ptext m true
  have hpe := length_normalizeAndPrepareText_even ptext m true
  have hctm : ∀ c ∈ transformDigraphPairs (buildCipherGrid key m) 1
      (normalizeAndPrepareText ptext m true), c ∈ buildCipherGrid key m :=
    fun c hc => mem_transformDigraphPairs _ hg 1 _ c hc
  have hcte := length_transformDigraphPairs_even (buildCipherGrid key m) 1
    (normalizeAndPrepareText ptext m true)
  rw [normalizeAndPrepareText_decrypt_id key m _ hctm hcte]
  exact transformDigraphPairs_roundtrip (buildCipherGrid key m) hg hnd 1 _ hpm hpe

/-- Witness for claim C1 at the plaintext HI, the empty key, and mode
MergeJintoI. -/
theorem claim_C1_round_trip_witness :
    (∀ c ∈ strCodes ("HI"),
      (FIRST_LETTER ≤ c ∧ c ≤ LAST_LETTER) ∨ (97 ≤ c ∧ c ≤ 122)) ∧
    (strCodes ("HI")).Chain' (fun x y => x ≠ y) ∧
    (strCodes ("HI")).length % 2 = 0 ∧
    transformDigraphPairs (buildCipherGrid [] MergeJintoI) (-1)
      (normalizeAndPrepareText
        (transformDigraphPairs (buildCipherGrid [] MergeJintoI) 1
          (normalizeAndPrepareText (strCodes ("HI")) MergeJintoI true))
        MergeJintoI false) =
      normalizeAndPrepareText (strCodes ("HI")) MergeJintoI true :=
  have hchain : (strCodes ("HI")).Chain' (fun x y => x ≠ y) := by
    rw [(by decide : strCodes ("HI") = [72, 73])]
    exact List.chain'_cons.mpr ⟨by omega, List.chain'_singleton 73⟩
  ⟨by decide, hchain, by decide,
    claim_C1_round_trip [] (strCodes ("HI")) MergeJintoI (by decide) hchain
      (by decide)⟩

end Playfair
